import Mathlib

/-
Verification of the layered image storage addressing core of
lib/portlayer/storage/image.go (package storage).

The embedding is shallow. Go values of type url.URL are modelled by the
structure URL below, keeping only the Path field: every URL handled by this
file is a pure path address of the form /storage/storeName/layerId, so the
methods used by the source, namely u.Path, u.String() and url.Parse of a
String() result, act on the Path component alone. Go pointers to heap
objects (url.URL cells and byte buffers) are modelled by indices into an
explicit Heap, so that aliasing and mutation visibility can be stated.
Go byte slices are lists of Nat, Go maps from string to byte slice are
association lists, a nil map or nil pointer is Option.none.

The functions filepath.IsAbs, filepath.Clean and strings.Split of the Go
standard library are embedded below, following their documented unix
behaviour: IsAbs tests for a leading slash; Split cuts around every
separator, keeping empty fields; Clean repeatedly removes duplicate
separators, single dot elements, and a non-dotdot element followed by a
dotdot element, and drops dotdot elements at the root of a rooted path.

Fallible Go functions return the sum type ParseResult; an out of range
slice index, which aborts a Go process, is the distinguished outcome
ParseResult.fatal, so that totality of Parse is a statable property.
-/

/-- Model of Go url.URL restricted to its Path field, which is the only
field the source reads or writes on the addresses it handles. -/
structure URL where
  Path : String
deriving DecidableEq

/-- Model of the method url.URL.String for a path-only URL: with empty
scheme, host, query and fragment the textual form is the path itself. -/
def urlString (u : URL) : String := u.Path

/-- Model of url.Parse applied to a plain rooted path (the only strings the
source feeds back into url.Parse): the result is a URL holding that path,
and no error can occur on such input, matching the ignored error value in
the source. -/
def urlParse (s : String) : URL := ⟨s⟩

/-- Model of Go strings.Split with separator the slash, on the character
list of the string: cut around every slash and keep the empty fields. An
empty input gives one empty field, as in Go. -/
def splitSlash : List Char → List (List Char)
  | [] => [[]]
  | c :: rest =>
    if c = '/' then [] :: splitSlash rest
    else
      match splitSlash rest with
      | [] => [[c]]
      | s :: ss => (c :: s) :: ss

/-- Go strings.Split(s, slash) as a function on String. -/
def stringsSplit (s : String) : List String :=
  (splitSlash s.data).map (fun cs => ⟨cs⟩)

/-- Model of Go filepath.IsAbs on unix: the path begins with a slash. -/
def filepathIsAbs (p : String) : Bool :=
  decide (p.data.head? = some '/')

/-- One pass of the element processing of Go filepath.Clean: empty and
single dot elements vanish; a dotdot element removes the preceding kept
element, vanishes at the root of a rooted path, and is kept when there is
nothing left to remove in a relative path. The accumulator holds the kept
elements in reverse. -/
def cleanSegsC (rooted : Bool) : List (List Char) → List (List Char) → List (List Char)
  | acc, [] => acc.reverse
  | acc, seg :: rest =>
    if seg = [] ∨ seg = ['.'] then cleanSegsC rooted acc rest
    else if seg = ['.', '.'] then
      match acc with
      | [] =>
        if rooted then cleanSegsC rooted [] rest
        else cleanSegsC rooted [['.', '.']] rest
      | top :: accRest =>
        if top = ['.', '.'] then cleanSegsC rooted (seg :: top :: accRest) rest
        else cleanSegsC rooted accRest rest
    else cleanSegsC rooted (seg :: acc) rest

/-- Joining of path elements with single slashes, the inverse step of the
splitting done by filepath.Clean. -/
def joinSegsC : List (List Char) → List Char
  | [] => []
  | [s] => s
  | s :: ss => s ++ '/' :: joinSegsC ss

/-- Model of Go filepath.Clean on the character list: the documented result
is the shortest equivalent path, a single slash for a rooted path whose
elements all vanish, a single dot for such a relative path, and the
slash-joined kept elements otherwise, with the leading slash restored on a
rooted path. -/
def cleanChars (cs : List Char) : List Char :=
  match cs with
  | [] => ['.']
  | c :: rest =>
    if c = '/' then
      match cleanSegsC true [] (splitSlash (c :: rest)) with
      | [] => ['/']
      | s :: ss => '/' :: joinSegsC (s :: ss)
    else
      match cleanSegsC false [] (splitSlash (c :: rest)) with
      | [] => ['.']
      | s :: ss => joinSegsC (s :: ss)

/-- Go filepath.Clean as a function on String. -/
def filepathClean (p : String) : String := ⟨cleanChars p.data⟩

/-- Explicit heap: the url.URL cells and the byte buffers a Go program
would hold through pointers. A reference is an index into the matching
list; allocation appends a cell. -/
structure Heap where
  urls : List URL
  bufs : List (List Nat)
deriving DecidableEq

def emptyHeap : Heap := ⟨[], []⟩

/-- Dereference a url.URL pointer. -/
def readURL (h : Heap) (r : Nat) : URL := h.urls.getD r ⟨""⟩

/-- Dereference a byte slice. -/
def readBuf (h : Heap) (r : Nat) : List Nat := h.bufs.getD r []

/-- Allocate a fresh url.URL cell holding the given value. -/
def allocURL (h : Heap) (u : URL) : Heap × Nat :=
  ({ h with urls := h.urls ++ [u] }, h.urls.length)

/-- Allocate a fresh byte buffer holding the given bytes, as the Go make
followed by copy does. -/
def allocBuf (h : Heap) (b : List Nat) : Heap × Nat :=
  ({ h with bufs := h.bufs ++ [b] }, h.bufs.length)

/-- Overwrite the bytes a buffer reference points at: the mutation whose
visibility the copy independence property is about. -/
def writeBuf (h : Heap) (r : Nat) (b : List Nat) : Heap :=
  { h with bufs := h.bufs.set r b }

/-- The struct Image of the source: ID, the SelfLink and Store pointers,
the optional ParentLink pointer, and the optional metadata map from keys
to byte buffer pointers. -/
structure Image where
  ID : String
  SelfLink : Nat
  ParentLink : Option Nat
  Store : Nat
  Metadata : Option (List (String × Nat))
deriving DecidableEq

/-- The buffer references reachable from the metadata of an image. -/
def Image.metaRefs (i : Image) : List Nat :=
  (i.Metadata.getD []).map (fun kr => kr.2)

/-- Well-formed image over a heap: every pointer field and every metadata
buffer reference is a live reference of the heap. -/
def Image.wf (h : Heap) (i : Image) : Bool :=
  decide (i.SelfLink < h.urls.length) &&
  decide (i.Store < h.urls.length) &&
  (match i.ParentLink with
   | some p => decide (p < h.urls.length)
   | none => true) &&
  i.metaRefs.all (fun r => decide (r < h.bufs.length))

/-- The metadata of an image as values: each buffer reference replaced by
the bytes it points at. Two images observe each other only through this
reading, so mutation visibility is stated with it. -/
def readMetadata (h : Heap) (i : Image) : Option (List (String × List Nat)) :=
  i.Metadata.map (fun m => m.map (fun kr => (kr.1, readBuf h kr.2)))

/-- Method Self of the source: the String form of the SelfLink. -/
def Image.Self (h : Heap) (i : Image) : String :=
  urlString (readURL h i.SelfLink)

/-- Method Parent of the source: the String form of the ParentLink when it
is set, and the Self string when it is nil. -/
def Image.Parent (h : Heap) (i : Image) : String :=
  match i.ParentLink with
  | some p => urlString (readURL h p)
  | none => Image.Self h i

/-- The metadata copying loop of the method Copy: for each entry a fresh
buffer of the same bytes is allocated (make of the same length followed by
copy) and the new map holds the fresh references. -/
def copyMeta (h : Heap) : List (String × Nat) → Heap × List (String × Nat)
  | [] => (h, [])
  | kr :: rest =>
    let a := allocBuf h (readBuf h kr.2)
    let res := copyMeta a.1 rest
    (res.1, (kr.1, a.2) :: res.2)

/-- Method Copy of the source: SelfLink and Store are re-parsed from their
String forms into fresh cells, ParentLink likewise when set, the new
struct reuses the ID, and when the metadata map is non-nil a fresh map is
built whose buffers are fresh byte for byte copies. A nil metadata map
stays nil on the copy. -/
def Image.Copy (h : Heap) (i : Image) : Heap × Image :=
  let a1 := allocURL h (urlParse (urlString (readURL h i.SelfLink)))
  let a2 := allocURL a1.1 (urlParse (urlString (readURL a1.1 i.Store)))
  let a3 : Heap × Option Nat :=
    match i.ParentLink with
    | some p =>
      let a := allocURL a2.1 (urlParse (urlString (readURL a2.1 p)))
      (a.1, some a.2)
    | none => (a2.1, none)
  match i.Metadata with
  | none =>
    (a3.1, { ID := i.ID, SelfLink := a1.2, ParentLink := a3.2, Store := a2.2, Metadata := none })
  | some m =>
    let r := copyMeta a3.1 m
    (r.1, { ID := i.ID, SelfLink := a1.2, ParentLink := a3.2, Store := a2.2, Metadata := some r.2 })

/-- Modelled from the spec: the constant util.StorageURLPath of package
lib/portlayer/util, whose source is not under src. The spec fixes the
reserved storage namespace as the leading path element of every address,
/storage/storeId/layerId, so the reserved element is the word storage. -/
def StorageURLPath : String := "storage"

/-- Modelled from the spec: util.ImageStoreNameToURL of package
lib/portlayer/util, whose source is not under src. Section 6 of the spec
derives the store address deterministically from the store name as
/storage/storeName; the derivation is total, matching the error value the
source checks but the spec never populates for a plain name. -/
def ImageStoreNameToURL (storeName : String) : URL :=
  ⟨"/storage/" ++ storeName⟩

/-- Modelled from the spec: the encoding direction of the address codec,
section 6 of the spec: the address of layer layerId inside the store named
storeName is the store address followed by one further element holding the
layer id. -/
def imageURL (storeName layerId : String) : URL :=
  ⟨(ImageStoreNameToURL storeName).Path ++ "/" ++ layerId⟩

/-- Outcome of the function Parse: a constructed Image, an error built
with errors.New, or a fatal out of range slice index. -/
inductive ParseResult where
  | ok : Image → ParseResult
  | err : String → ParseResult
  | fatal : ParseResult
deriving DecidableEq

/-- The function Parse of the source, line for line: reject a non absolute
path; split the cleaned path on slashes; reject when element zero differs
from util.StorageURLPath; reject when fewer than three elements; derive
the store address from element two; take the id from element three, an
access the source performs with no bound check, hence fatal when out of
range; build the Image from a fresh copy of the input URL, the id and the
store, leaving ParentLink and Metadata nil. -/
def Parse (h : Heap) (u : URL) : Heap × ParseResult :=
  if filepathIsAbs u.Path then
    match stringsSplit (filepathClean u.Path) with
    | [] => (h, ParseResult.fatal)
    | s0 :: rest =>
      if s0 = StorageURLPath then
        if (s0 :: rest).length < 3 then (h, ParseResult.err "uri path mismatch")
        else
          match (s0 :: rest).get? 2, (s0 :: rest).get? 3 with
          | some storeName, some layerId =>
            let a := allocURL h u
            let b := allocURL a.1 (ImageStoreNameToURL storeName)
            (b.1, ParseResult.ok
              { ID := layerId, SelfLink := a.2, ParentLink := none,
                Store := b.2, Metadata := none })
          | _, _ => (h, ParseResult.fatal)
      else (h, ParseResult.err "not a storage path")
  else (h, ParseResult.err "invalid uri path")


def hEx : Heap :=
  ⟨[⟨"/storage/default/base"⟩, ⟨"/storage/default"⟩, ⟨"/storage/default/papa"⟩],
   [[7, 7], [1, 2, 3]]⟩

def imgRoot : Image := ⟨"base", 0, none, 1, none⟩

def imgChild : Image := ⟨"app", 0, some 2, 1, some [("k", 0), ("j", 1)]⟩

def imgEmptyMeta : Image := ⟨"base", 0, none, 1, some []⟩

/-- Modelled from the spec: the error taxonomy of section 7 restricted to
the failures the write path can raise; ImageStorer.WriteImage is an
interface method with no implementation under src. -/
inductive WriteErr where
  | ChecksumMismatch : WriteErr
  | DuplicateLayer : WriteErr
  | ParentNotFound : WriteErr
deriving DecidableEq

/-- Modelled from the spec: the mutable state of one image store as the
backing store capability sees it: the accepted layers, each with its
content, and the at most one in-flight write streamed but not yet
accepted. -/
structure StoreState where
  layers : List (String × List Nat)
  pending : Option (String × List Nat)
deriving DecidableEq

/-- Modelled from the spec: the id sequence a listLayers call with no ids
reports, one entry per accepted layer. -/
def listLayers (st : StoreState) : List String :=
  st.layers.map (fun e => e.1)

/-- Modelled from the spec: the layer value the engine returns, with the
addresses derived through the address codec. -/
structure LayerVal where
  ID : String
  SelfLink : URL
  ParentLink : Option URL
  Store : URL
  Metadata : Option (List (String × List Nat))
deriving DecidableEq

/-- Modelled from the spec: step one of writeLayer, the parent address
resolves when it is the no-parent sentinel or names an accepted layer of
the store. -/
def parentResolves (storeName : String) (st : StoreState) (parent : Option URL) : Bool :=
  match parent with
  | none => true
  | some p => st.layers.any (fun e => decide (imageURL storeName e.1 = p))

/-- Modelled from the spec: writeLayer of section 4.4, whose source,
ImageStorer.WriteImage, is an interface method with no implementation
under src. Step 1 resolves the parent; step 2 streams the content to the
backing store, recorded as the pending entry, while the checksum is
computed; step 3 rejects a checksum mismatch and discards the pending
content; step 4 rejects a duplicate layer id likewise; step 5 accepts the
layer and returns the Layer value with addresses derived through the
codec and the caller metadata. -/
def writeLayer (ck : List Nat → String) (storeName : String) (st : StoreState)
    (parent : Option URL) (ID : String) (meta : Option (List (String × List Nat)))
    (sum : String) (content : List Nat) : StoreState × Except WriteErr LayerVal :=
  if parentResolves storeName st parent then
    let inflight : StoreState := { st with pending := some (ID, content) }
    if ck content ≠ sum then
      ({ inflight with pending := none }, Except.error WriteErr.ChecksumMismatch)
    else if (listLayers st).contains ID then
      ({ inflight with pending := none }, Except.error WriteErr.DuplicateLayer)
    else
      ({ layers := st.layers ++ [(ID, content)], pending := none },
       Except.ok { ID := ID, SelfLink := imageURL storeName ID, ParentLink := parent,
                   Store := ImageStoreNameToURL storeName, Metadata := meta })
  else (st, Except.error WriteErr.ParentNotFound)

def ckEx : List Nat → String :=
  fun content => if content.length = 0 then "empty" else "nonempty"

def stEx : StoreState := ⟨[("base", [9])], none⟩

/-- Heap extension: the second heap holds every cell of the first at the
same reference, possibly followed by freshly allocated cells. Every
operation of the model only ever extends the heap. -/
def heapExt (h g : Heap) : Prop :=
  (∃ ut, g.urls = h.urls ++ ut) ∧ (∃ bt, g.bufs = h.bufs ++ bt)

lemma splitSlash_slash_cons (t : List Char) : splitSlash ('/' :: t) = [] :: splitSlash t := by
  simp [splitSlash]

lemma cleanChars_abs (rest : List Char) : ∃ t, cleanChars ('/' :: rest) = '/' :: t := by
  unfold cleanChars
  simp only [if_pos rfl]
  cases h : cleanSegsC true [] (splitSlash ('/' :: rest)) with
  | nil => exact ⟨[], rfl⟩
  | cons s ss => exact ⟨joinSegsC (s :: ss), rfl⟩

lemma Parse_eq_err (h : Heap) (u : URL) :
    Parse h u = (h, ParseResult.err
      (if filepathIsAbs u.Path then "not a storage path" else "invalid uri path")) := by
  cases u with
  | mk P =>
    cases P with
    | mk cs =>
      cases cs with
      | nil => simp [Parse, filepathIsAbs]
      | cons c rest =>
        by_cases hc : c = '/'
        · subst hc
          have habs : filepathIsAbs (⟨'/' :: rest⟩ : String) = true := by
            simp [filepathIsAbs]
          obtain ⟨t, ht⟩ := cleanChars_abs rest
          have hsplit : stringsSplit (filepathClean (⟨'/' :: rest⟩ : String)) =
              "" :: (splitSlash t).map (fun l => (⟨l⟩ : String)) := by
            simp [stringsSplit, filepathClean, ht, splitSlash_slash_cons]
          rw [Parse, hsplit]
          simp [habs, StorageURLPath]
        · have habs : filepathIsAbs (⟨c :: rest⟩ : String) = false := by
            simp [filepathIsAbs, hc]
          simp [Parse, habs]

/-- Claim C1 (code_bug evidence): decoding the address encoded from the
pair (default, base) does not yield the pair back; Parse rejects the
address /storage/default/base with the not a storage path error, because
element zero of the split cleaned absolute path is the empty element in
front of the leading slash and never equals the storage element. -/
theorem parse_rejects_encoded_pair :
    (Parse emptyHeap (imageURL "default" "base")).2 =
      ParseResult.err "not a storage path" := by decide

/-- Claim C2 (code_bug evidence): the address /storage/store1/layer1 is
absolute, its cleaned path splits into the empty element, the storage
element and two further elements, so none of the three malformedness
conditions of the claim holds, yet Parse returns an error. -/
theorem parse_rejects_wellformed_address :
    filepathIsAbs (imageURL "store1" "layer1").Path = true ∧
    stringsSplit (filepathClean (imageURL "store1" "layer1").Path) =
      ["", StorageURLPath, "store1", "layer1"] ∧
    (Parse emptyHeap (imageURL "store1" "layer1")).2 =
      ParseResult.err "not a storage path" := by decide

/-- Claim C3: decoding is total; for every heap and every input URL, Parse
returns a constructed Image or an error value, never the fatal outcome of
an out of range index: the unguarded access to element three sits behind
the element zero comparison, which always fails first. -/
theorem parse_ok_or_err (h : Heap) (u : URL) :
    (∃ e, (Parse h u).2 = ParseResult.err e) ∨
    (∃ i, (Parse h u).2 = ParseResult.ok i) := by
  rw [Parse_eq_err]
  exact Or.inl ⟨_, rfl⟩

/-- Claim C9 (code_bug evidence): no URL at all decodes successfully, so
the set of successful decodes the claim quantifies over is empty; Parse
returns an error on every input. -/
theorem parse_never_succeeds (h : Heap) (u : URL) :
    ∃ e, (Parse h u).2 = ParseResult.err e := by
  rw [Parse_eq_err]
  exact ⟨_, rfl⟩

/-- Claim C10 (code_bug evidence): an absolute storage path with three
elements after the storage element is rejected with the not a storage path
error instead of parsing to the layer id base. -/
theorem parse_rejects_extra_segments :
    (Parse emptyHeap (⟨"/storage/default/base/extra"⟩ : URL)).2 =
      ParseResult.err "not a storage path" := by decide

lemma getD_append_lt {α : Type} (l t : List α) (d : α) (j : Nat) (hj : j < l.length) :
    (l ++ t).getD j d = l.getD j d := by
  induction l generalizing j with
  | nil => simp at hj
  | cons a l ih =>
    cases j with
    | zero => simp
    | succ j => simpa using ih j (by simpa using hj)

lemma getD_append_len {α : Type} (l : List α) (v : α) (t : List α) (d : α) :
    (l ++ v :: t).getD l.length d = v := by
  induction l with
  | nil => simp
  | cons a l ih => simpa using ih

lemma getD_set_ne {α : Type} (l : List α) (r j : Nat) (v d : α) (hne : j ≠ r) :
    (l.set r v).getD j d = l.getD j d := by
  induction l generalizing r j with
  | nil => simp
  | cons a l ih =>
    cases r with
    | zero =>
      cases j with
      | zero => exact absurd rfl hne
      | succ j => simp
    | succ r =>
      cases j with
      | zero => simp
      | succ j => simpa using ih r j (by omega)

lemma copyMeta_spec (m : List (String × Nat)) (h : Heap)
    (hb : ∀ kr ∈ m, kr.2 < h.bufs.length) :
    (copyMeta h m).1.urls = h.urls ∧
    (∃ t, (copyMeta h m).1.bufs = h.bufs ++ t) ∧
    (∀ kr ∈ (copyMeta h m).2, h.bufs.length ≤ kr.2) ∧
    (copyMeta h m).2.map (fun kr => (kr.1, readBuf (copyMeta h m).1 kr.2)) =
      m.map (fun kr => (kr.1, readBuf h kr.2)) := by
  induction m generalizing h with
  | nil => exact ⟨rfl, ⟨[], by simp [copyMeta]⟩, by simp [copyMeta], by simp [copyMeta]⟩
  | cons kr rest ih =>
    have hhead : kr.2 < h.bufs.length := hb kr (List.mem_cons_self kr rest)
    set h1 : Heap := { h with bufs := h.bufs ++ [readBuf h kr.2] } with hh1
    have hb1 : ∀ kr ∈ rest, kr.2 < h1.bufs.length := by
      intro x hx
      have := hb x (List.mem_cons_of_mem kr hx)
      simp [hh1]
      omega
    obtain ⟨ihu, ⟨t, iht⟩, ihlb, ihread⟩ := ih h1 hb1
    have hunfold : copyMeta h (kr :: rest) =
        ((copyMeta h1 rest).1, (kr.1, h.bufs.length) :: (copyMeta h1 rest).2) := by
      simp [copyMeta, allocBuf, hh1]
    refine ⟨?_, ?_, ?_, ?_⟩
    · rw [hunfold]
      simpa [hh1] using ihu
    · rw [hunfold]
      exact ⟨readBuf h kr.2 :: t, by simp [iht, hh1]⟩
    · rw [hunfold]
      intro x hx
      rcases List.mem_cons.mp hx with hx | hx
      · subst hx; exact Nat.le_refl _
      · have := ihlb x hx
        simp [hh1] at this
        omega
    · rw [hunfold]
      simp only [List.map_cons]
      have hhd : readBuf (copyMeta h1 rest).1 h.bufs.length = readBuf h kr.2 := by
        rw [readBuf, iht]
        have he : h1.bufs ++ t = h.bufs ++ (readBuf h kr.2 :: t) := by simp [hh1]
        rw [he, getD_append_len]
      have htl : List.map (fun kr => (kr.1, readBuf (copyMeta h1 rest).1 kr.2)) (copyMeta h1 rest).2 =
          List.map (fun kr => (kr.1, readBuf h kr.2)) rest := by
        rw [ihread]
        apply List.map_congr_left
        intro x hx
        have hxlt := hb x (List.mem_cons_of_mem kr hx)
        have hr : readBuf h1 x.2 = readBuf h x.2 := by
          rw [readBuf, readBuf]
          show (h.bufs ++ [readBuf h kr.2]).getD x.2 [] = h.bufs.getD x.2 []
          exact getD_append_lt _ _ _ _ hxlt
        rw [hr]
      rw [hhd, htl]

lemma heapExt_refl (h : Heap) : heapExt h h :=
  ⟨⟨[], by simp⟩, ⟨[], by simp⟩⟩

lemma heapExt_trans {h g k : Heap} (hg : heapExt h g) (gk : heapExt g k) : heapExt h k := by
  obtain ⟨⟨u1, hu1⟩, ⟨b1, hb1⟩⟩ := hg
  obtain ⟨⟨u2, hu2⟩, ⟨b2, hb2⟩⟩ := gk
  exact ⟨⟨u1 ++ u2, by simp [hu2, hu1]⟩, ⟨b1 ++ b2, by simp [hb2, hb1]⟩⟩

lemma heapExt_allocURL (h : Heap) (u : URL) : heapExt h (allocURL h u).1 :=
  ⟨⟨[u], rfl⟩, ⟨[], by simp [allocURL]⟩⟩

lemma heapExt_allocBuf (h : Heap) (b : List Nat) : heapExt h (allocBuf h b).1 :=
  ⟨⟨[], by simp [allocBuf]⟩, ⟨[b], rfl⟩⟩

lemma copyMeta_ext (m : List (String × Nat)) (h : Heap) : heapExt h (copyMeta h m).1 := by
  induction m generalizing h with
  | nil => exact heapExt_refl h
  | cons kr rest ih =>
    exact heapExt_trans (heapExt_allocBuf h (readBuf h kr.2)) (ih _)

lemma Copy_ext (h : Heap) (i : Image) : heapExt h (Image.Copy h i).1 := by
  have e1 := heapExt_allocURL h (urlParse (urlString (readURL h i.SelfLink)))
  cases hpl : i.ParentLink with
  | none =>
    cases hmd : i.Metadata with
    | none =>
      simp only [Image.Copy, hpl, hmd]
      exact heapExt_trans e1 (heapExt_allocURL _ _)
    | some m =>
      simp only [Image.Copy, hpl, hmd]
      exact heapExt_trans (heapExt_trans e1 (heapExt_allocURL _ _)) (copyMeta_ext m _)
  | some p =>
    cases hmd : i.Metadata with
    | none =>
      simp only [Image.Copy, hpl, hmd]
      exact heapExt_trans (heapExt_trans e1 (heapExt_allocURL _ _)) (heapExt_allocURL _ _)
    | some m =>
      simp only [Image.Copy, hpl, hmd]
      exact heapExt_trans
        (heapExt_trans (heapExt_trans e1 (heapExt_allocURL _ _)) (heapExt_allocURL _ _))
        (copyMeta_ext m _)

lemma readURL_ext {h g : Heap} (he : heapExt h g) (r : Nat) (hr : r < h.urls.length) :
    readURL g r = readURL h r := by
  obtain ⟨⟨ut, hu⟩, _⟩ := he
  rw [readURL, readURL, hu, getD_append_lt _ _ _ _ hr]

lemma readBuf_ext {h g : Heap} (he : heapExt h g) (r : Nat) (hr : r < h.bufs.length) :
    readBuf g r = readBuf h r := by
  obtain ⟨_, ⟨bt, hb⟩⟩ := he
  rw [readBuf, readBuf, hb, getD_append_lt _ _ _ _ hr]

lemma wf_parts (h : Heap) (i : Image) (hwf : i.wf h = true) :
    i.SelfLink < h.urls.length ∧ i.Store < h.urls.length ∧
    (∀ p, i.ParentLink = some p → p < h.urls.length) ∧
    (∀ r ∈ i.metaRefs, r < h.bufs.length) := by
  rw [Image.wf] at hwf
  simp only [Bool.and_eq_true, decide_eq_true_eq, List.all_eq_true] at hwf
  obtain ⟨⟨⟨h1, h2⟩, h3⟩, h4⟩ := hwf
  refine ⟨h1, h2, ?_, fun r hr => by simpa using h4 r hr⟩
  intro p hp
  rw [hp] at h3
  simpa using h3

lemma Copy_fields (h : Heap) (i : Image) :
    (Image.Copy h i).2.ID = i.ID ∧
    (Image.Copy h i).2.SelfLink = h.urls.length ∧
    (Image.Copy h i).2.Store = h.urls.length + 1 ∧
    ((Image.Copy h i).2.Metadata = none ↔ i.Metadata = none) := by
  cases hpl : i.ParentLink <;> cases hmd : i.Metadata <;>
    simp [Image.Copy, allocURL, hpl, hmd]

lemma copyMeta_urls (m : List (String × Nat)) (h : Heap) :
    (copyMeta h m).1.urls = h.urls := by
  induction m generalizing h with
  | nil => rfl
  | cons kr rest ih =>
    simpa [copyMeta, allocBuf] using ih { h with bufs := h.bufs ++ [readBuf h kr.2] }

lemma getD_append_len2 {α : Type} (l : List α) (v : α) (t : List α) (d : α) :
    ((l ++ [v]) ++ t).getD l.length d = v := by
  rw [List.append_assoc, List.singleton_append, getD_append_len]

lemma Copy_selfLink_value (h : Heap) (i : Image) :
    readURL (Image.Copy h i).1 ((Image.Copy h i).2.SelfLink) = readURL h i.SelfLink := by
  cases hpl : i.ParentLink with
  | none =>
    cases hmd : i.Metadata with
    | none =>
      simp only [Image.Copy, hpl, hmd, allocURL]
      exact getD_append_len2 _ _ _ _
    | some m =>
      simp only [Image.Copy, hpl, hmd, allocURL]
      rw [readURL, copyMeta_urls]
      exact getD_append_len2 _ _ _ _
  | some p =>
    cases hmd : i.Metadata with
    | none =>
      simp only [Image.Copy, hpl, hmd, allocURL]
      rw [readURL, List.append_assoc]
      exact getD_append_len2 _ _ _ _
    | some m =>
      simp only [Image.Copy, hpl, hmd, allocURL]
      rw [readURL, copyMeta_urls, List.append_assoc]
      exact getD_append_len2 _ _ _ _

lemma copyMeta_on_bufs_eq (m : List (String × Nat)) (g h : Heap) (hgb : g.bufs = h.bufs)
    (hb : ∀ kr ∈ m, kr.2 < h.bufs.length) :
    (∀ kr ∈ (copyMeta g m).2, h.bufs.length ≤ kr.2) ∧
    (copyMeta g m).2.map (fun kr => (kr.1, readBuf (copyMeta g m).1 kr.2)) =
      m.map (fun kr => (kr.1, readBuf h kr.2)) := by
  obtain ⟨-, -, hlb, hread⟩ := copyMeta_spec m g (by rw [hgb]; exact hb)
  constructor
  · intro kr hkr
    have := hlb kr hkr
    rwa [hgb] at this
  · rw [hread]
    apply List.map_congr_left
    intro x hx
    have : readBuf g x.2 = readBuf h x.2 := by rw [readBuf, readBuf, hgb]
    rw [this]

lemma copyMeta_any_urls (m : List (String × Nat)) (X : List URL) (h : Heap)
    (hb : ∀ kr ∈ m, kr.2 < h.bufs.length) :
    (∀ kr ∈ (copyMeta { urls := X, bufs := h.bufs } m).2, h.bufs.length ≤ kr.2) ∧
    (copyMeta { urls := X, bufs := h.bufs } m).2.map
        (fun kr => (kr.1, readBuf (copyMeta { urls := X, bufs := h.bufs } m).1 kr.2)) =
      m.map (fun kr => (kr.1, readBuf h kr.2)) :=
  copyMeta_on_bufs_eq m { urls := X, bufs := h.bufs } h rfl hb

lemma mem_metaRefs_of_mem {i : Image} {m : List (String × Nat)} (hmd : i.Metadata = some m)
    {kr : String × Nat} (hkr : kr ∈ m) : kr.2 ∈ i.metaRefs := by
  rw [Image.metaRefs, hmd]
  exact List.mem_map.mpr ⟨kr, hkr, rfl⟩

lemma Copy_metaRefs_lb (h : Heap) (i : Image) (hwf : i.wf h = true) :
    ∀ r ∈ (Image.Copy h i).2.metaRefs, h.bufs.length ≤ r := by
  obtain ⟨-, -, -, hmb⟩ := wf_parts h i hwf
  cases hmd : i.Metadata with
  | none =>
    cases hpl : i.ParentLink <;> simp [Image.Copy, hpl, hmd, Image.metaRefs]
  | some m =>
    have hb : ∀ kr ∈ m, kr.2 < h.bufs.length :=
      fun kr hkr => hmb kr.2 (mem_metaRefs_of_mem hmd hkr)
    intro r hr
    cases hpl : i.ParentLink with
    | none =>
      simp only [Image.Copy, hpl, hmd, allocURL, Image.metaRefs, Option.getD_some] at hr
      obtain ⟨kr, hkr, hkr2⟩ := List.mem_map.mp hr
      exact hkr2 ▸ (copyMeta_any_urls m _ h hb).1 kr hkr
    | some p =>
      simp only [Image.Copy, hpl, hmd, allocURL, Image.metaRefs, Option.getD_some] at hr
      obtain ⟨kr, hkr, hkr2⟩ := List.mem_map.mp hr
      exact hkr2 ▸ (copyMeta_any_urls m _ h hb).1 kr hkr

lemma Copy_readMetadata (h : Heap) (i : Image) (hwf : i.wf h = true) :
    readMetadata (Image.Copy h i).1 (Image.Copy h i).2 = readMetadata h i := by
  obtain ⟨-, -, -, hmb⟩ := wf_parts h i hwf
  cases hmd : i.Metadata with
  | none =>
    cases hpl : i.ParentLink <;> simp [Image.Copy, hpl, hmd, readMetadata]
  | some m =>
    have hb : ∀ kr ∈ m, kr.2 < h.bufs.length :=
      fun kr hkr => hmb kr.2 (mem_metaRefs_of_mem hmd hkr)
    cases hpl : i.ParentLink with
    | none =>
      simp only [Image.Copy, hpl, hmd, allocURL, readMetadata, Option.map_some]
      exact congrArg some (copyMeta_any_urls m _ h hb).2
    | some p =>
      simp only [Image.Copy, hpl, hmd, allocURL, readMetadata, Option.map_some]
      exact congrArg some (copyMeta_any_urls m _ h hb).2

lemma readMetadata_writeBuf_ne (h : Heap) (x : Image) (r : Nat) (b : List Nat)
    (hall : ∀ s ∈ x.metaRefs, s ≠ r) :
    readMetadata (writeBuf h r b) x = readMetadata h x := by
  cases hm : x.Metadata with
  | none => simp [readMetadata, hm]
  | some m =>
    simp only [readMetadata, hm, Option.map_some]
    refine congrArg some (List.map_congr_left ?_)
    intro kr hkr
    have hne : kr.2 ≠ r := hall kr.2 (mem_metaRefs_of_mem hm hkr)
    have hrb : readBuf (writeBuf h r b) kr.2 = readBuf h kr.2 := by
      rw [readBuf, readBuf, writeBuf]
      exact getD_set_ne _ _ _ _ _ hne
    rw [hrb]

lemma readMetadata_ext (h g : Heap) (x : Image) (he : heapExt h g)
    (hbounds : ∀ r ∈ x.metaRefs, r < h.bufs.length) :
    readMetadata g x = readMetadata h x := by
  cases hm : x.Metadata with
  | none => simp [readMetadata, hm]
  | some m =>
    simp only [readMetadata, hm, Option.map_some]
    refine congrArg some (List.map_congr_left ?_)
    intro kr hkr
    rw [readBuf_ext he kr.2 (hbounds kr.2 (mem_metaRefs_of_mem hm hkr))]

/-- Claim C6: the method Parent returns the Self string of the image when
no parent link is set, and the string of the parent cell when one is set. -/
theorem parent_self_or_link (h : Heap) (i : Image) :
    (i.ParentLink = none → Image.Parent h i = Image.Self h i) ∧
    (∀ p, i.ParentLink = some p → Image.Parent h i = urlString (readURL h p)) := by
  constructor
  · intro hp
    simp [Image.Parent, hp]
  · intro p hp
    simp [Image.Parent, hp]

/-- Claim C5: the copy is independent of the original: overwriting any
buffer reachable from the metadata of the copy leaves the metadata values
of the original unchanged and the other way round; the address cells of
the copy are fresh references, not aliases, holding the same URL value. -/
theorem copy_independent (h : Heap) (i : Image) (hwf : i.wf h = true) :
    (∀ r ∈ (Image.Copy h i).2.metaRefs, ∀ b,
        readMetadata (writeBuf (Image.Copy h i).1 r b) i =
          readMetadata (Image.Copy h i).1 i) ∧
    (∀ r ∈ i.metaRefs, ∀ b,
        readMetadata (writeBuf (Image.Copy h i).1 r b) (Image.Copy h i).2 =
          readMetadata (Image.Copy h i).1 (Image.Copy h i).2) ∧
    (Image.Copy h i).2.SelfLink ≠ i.SelfLink ∧
    (Image.Copy h i).2.Store ≠ i.Store ∧
    readURL (Image.Copy h i).1 ((Image.Copy h i).2.SelfLink) = readURL h i.SelfLink := by
  obtain ⟨hself, hstore, -, hmb⟩ := wf_parts h i hwf
  have hlb := Copy_metaRefs_lb h i hwf
  obtain ⟨-, hSelf, hStore, -⟩ := Copy_fields h i
  refine ⟨?_, ?_, ?_, ?_, Copy_selfLink_value h i⟩
  · intro r hr b
    apply readMetadata_writeBuf_ne
    intro s hs
    have h1 := hmb s hs
    have h2 := hlb r hr
    omega
  · intro r hr b
    apply readMetadata_writeBuf_ne
    intro s hs
    have h1 := hlb s hs
    have h2 := hmb r hr
    omega
  · rw [hSelf]
    have := hself
    omega
  · rw [hStore]
    have := hstore
    omega

/-- Claim C8 (frame): the Copy call leaves every observable of the
original image unchanged: its Self string, its Parent string, the URL its
Store field points at, and all its metadata values read the same in the
heap Copy returns as in the heap before the call; the fields of the
original struct are values and are untouched by construction. -/
theorem copy_frame (h : Heap) (i : Image) (hwf : i.wf h = true) :
    Image.Self (Image.Copy h i).1 i = Image.Self h i ∧
    Image.Parent (Image.Copy h i).1 i = Image.Parent h i ∧
    urlString (readURL (Image.Copy h i).1 i.Store) = urlString (readURL h i.Store) ∧
    readMetadata (Image.Copy h i).1 i = readMetadata h i := by
  obtain ⟨hself, hstore, hpar, hmb⟩ := wf_parts h i hwf
  have he := Copy_ext h i
  have hS : Image.Self (Image.Copy h i).1 i = Image.Self h i := by
    rw [Image.Self, Image.Self, readURL_ext he i.SelfLink hself]
  refine ⟨hS, ?_, ?_, readMetadata_ext h _ i he hmb⟩
  · cases hpl : i.ParentLink with
    | none =>
      simp only [Image.Parent, hpl]
      exact hS
    | some p =>
      simp only [Image.Parent, hpl]
      rw [readURL_ext he p (hpar p hpl)]
  · rw [readURL_ext he i.Store hstore]

/-- Claim C7 as amended: a nil metadata map copies to a nil map and a
non-nil map, a zero length one included, copies to a non-nil map; every
value is read back byte for byte equal, and every buffer of the copy is a
fresh reference allocated after the call began. -/
theorem copy_metadata_amended (h : Heap) (i : Image) (hwf : i.wf h = true) :
    ((Image.Copy h i).2.Metadata = none ↔ i.Metadata = none) ∧
    readMetadata (Image.Copy h i).1 (Image.Copy h i).2 = readMetadata h i ∧
    (∀ r ∈ (Image.Copy h i).2.metaRefs, h.bufs.length ≤ r) :=
  ⟨(Copy_fields h i).2.2.2, Copy_readMetadata h i hwf, Copy_metaRefs_lb h i hwf⟩

theorem parent_self_or_link_witness :
    Image.Parent hEx imgRoot = Image.Self hEx imgRoot ∧
    Image.Parent hEx imgChild = urlString (readURL hEx 2) :=
  ⟨(parent_self_or_link hEx imgRoot).1 rfl,
   (parent_self_or_link hEx imgChild).2 2 rfl⟩

/-- Claim C7 counterexample: an image whose metadata map is present and of
zero length copies to an image whose metadata map is again present and of
zero length, not to an absent map as the claim states. -/
theorem copy_empty_metadata_not_absent :
    imgEmptyMeta.Metadata = some [] ∧
    ((Image.Copy hEx imgEmptyMeta).2).Metadata = some [] := by decide

theorem copy_independent_witness :
    imgChild.wf hEx = true ∧
    ((∀ r ∈ (Image.Copy hEx imgChild).2.metaRefs, ∀ b,
        readMetadata (writeBuf (Image.Copy hEx imgChild).1 r b) imgChild =
          readMetadata (Image.Copy hEx imgChild).1 imgChild) ∧
     (∀ r ∈ imgChild.metaRefs, ∀ b,
        readMetadata (writeBuf (Image.Copy hEx imgChild).1 r b) (Image.Copy hEx imgChild).2 =
          readMetadata (Image.Copy hEx imgChild).1 (Image.Copy hEx imgChild).2) ∧
     (Image.Copy hEx imgChild).2.SelfLink ≠ imgChild.SelfLink ∧
     (Image.Copy hEx imgChild).2.Store ≠ imgChild.Store ∧
     readURL (Image.Copy hEx imgChild).1 ((Image.Copy hEx imgChild).2.SelfLink) =
       readURL hEx imgChild.SelfLink) :=
  ⟨by decide, copy_independent hEx imgChild (by decide)⟩

theorem copy_frame_witness :
    imgChild.wf hEx = true ∧
    (Image.Self (Image.Copy hEx imgChild).1 imgChild = Image.Self hEx imgChild ∧
     Image.Parent (Image.Copy hEx imgChild).1 imgChild = Image.Parent hEx imgChild ∧
     urlString (readURL (Image.Copy hEx imgChild).1 imgChild.Store) =
       urlString (readURL hEx imgChild.Store) ∧
     readMetadata (Image.Copy hEx imgChild).1 imgChild = readMetadata hEx imgChild) :=
  ⟨by decide, copy_frame hEx imgChild (by decide)⟩

theorem copy_metadata_amended_witness :
    imgEmptyMeta.wf hEx = true ∧
    (((Image.Copy hEx imgEmptyMeta).2.Metadata = none ↔ imgEmptyMeta.Metadata = none) ∧
     readMetadata (Image.Copy hEx imgEmptyMeta).1 (Image.Copy hEx imgEmptyMeta).2 =
       readMetadata hEx imgEmptyMeta ∧
     (∀ r ∈ (Image.Copy hEx imgEmptyMeta).2.metaRefs, hEx.bufs.length ≤ r)) :=
  ⟨by decide, copy_metadata_amended hEx imgEmptyMeta (by decide)⟩

/-- Claim C4: a writeLayer call whose computed checksum differs from the
expected sum, on a store with no other write in flight and a resolvable
parent, fails with ChecksumMismatch, the streamed content is discarded
(the final state carries no pending entry and equals the initial state),
and the layer set is unchanged, so a later listLayers does not report the
rejected id. -/
theorem writeLayer_checksum_mismatch (ck : List Nat → String) (storeName : String)
    (st : StoreState) (parent : Option URL) (ID : String)
    (meta : Option (List (String × List Nat))) (sum : String) (content : List Nat)
    (hck : ck content ≠ sum) (hpar : parentResolves storeName st parent = true)
    (hpend : st.pending = none) :
    writeLayer ck storeName st parent ID meta sum content =
      (st, Except.error WriteErr.ChecksumMismatch) ∧
    listLayers (writeLayer ck storeName st parent ID meta sum content).1 = listLayers st ∧
    (ID ∉ listLayers st →
      ID ∉ listLayers (writeLayer ck storeName st parent ID meta sum content).1) := by
  have hst : ({ st with pending := none } : StoreState) = st := by
    cases st with
    | mk layers pending => simp at hpend; rw [hpend]
  have hw : writeLayer ck storeName st parent ID meta sum content =
      (st, Except.error WriteErr.ChecksumMismatch) := by
    rw [writeLayer, if_pos hpar]
    simp only [if_pos hck]
    rw [hst]
  exact ⟨hw, by rw [hw], fun hn => by rw [hw]; exact hn⟩

theorem writeLayer_checksum_mismatch_witness :
    ckEx [1, 2, 3] ≠ "c2" ∧
    parentResolves "default" stEx (some (imageURL "default" "base")) = true ∧
    stEx.pending = none ∧
    (writeLayer ckEx "default" stEx (some (imageURL "default" "base")) "app" none "c2" [1, 2, 3] =
       (stEx, Except.error WriteErr.ChecksumMismatch) ∧
     listLayers (writeLayer ckEx "default" stEx (some (imageURL "default" "base"))
         "app" none "c2" [1, 2, 3]).1 = listLayers stEx ∧
     ("app" ∉ listLayers stEx →
       "app" ∉ listLayers (writeLayer ckEx "default" stEx (some (imageURL "default" "base"))
         "app" none "c2" [1, 2, 3]).1)) :=
  ⟨by decide, by decide, by decide,
   writeLayer_checksum_mismatch ckEx "default" stEx (some (imageURL "default" "base"))
     "app" none "c2" [1, 2, 3] (by decide) (by decide) (by decide)⟩
